import Mathlib

/-!
Verification of the seat-allocation engine of the hall-assigner application.

The embedding below translates the core of `generateSeatingAllocation` and its
helpers (`alternateStudentsByYearSection`, `shuffleArray`) from the React page
component into Lean, together with the surrounding orchestration: eligibility
query, delete of the previous allocation set, capacity gate, mixing strategy
dispatch, and the bench/seat packing loop.  The persistence store is modelled
as an explicit list of allocation rows threaded through the run; the ambient
`Math.random()` stream is modelled as an explicit function from the loop index
to a natural draw.
-/

namespace HallAssigner

/-- Lexicographic comparison of character lists, used to model the text
ordering of the `ORDER BY` clause on the student columns.  (The Mathlib string
order is not kernel-reducible, so the comparison is spelled out on the
character data.) -/
def charListLt : List Char → List Char → Bool
  | _, [] => false
  | [], _ :: _ => true
  | a :: as, b :: bs =>
    if a < b then true
    else if b < a then false
    else charListLt as bs

/-- Strict text ordering on strings (lexicographic on the character data). -/
def strLt (a b : String) : Bool := charListLt a.data b.data

/-- Non-strict text ordering on strings. -/
def strLe (a b : String) : Bool := strLt a b || a == b

/-- A row of the `students` table (fields used by the engine). -/
structure Student where
  id : String
  name : String
  roll_number : String
  year : String
  «section» : String
  department : String
deriving DecidableEq, Repr

/-- A row of the `classrooms` table (fields used by the engine).  In the
database schema `total_capacity` is a generated column equal to
`total_benches * students_per_bench`; the engine nevertheless reads the stored
field, so it is kept as an independent field here. -/
structure Classroom where
  id : String
  room_number : String
  building : String
  total_benches : Nat
  total_capacity : Nat
  students_per_bench : Nat
deriving DecidableEq, Repr

/-- A row of the `seating_allocations` table as built by the packing loop. -/
structure Allocation where
  exam_id : String
  classroom_id : String
  student_id : String
  bench_number : Nat
  seat_position : Nat
deriving DecidableEq, Repr

/-- Outcome of one allocation run: the three exits of
`generateSeatingAllocation` that the engine itself decides (the "No Students
Found" toast, the "Insufficient Capacity" toast carrying both numbers, and the
success path carrying the computed allocation rows). -/
inductive RunResult where
  | noStudents : RunResult
  | insufficientCapacity (needed available : Nat) : RunResult
  | ok (allocs : List Allocation) : RunResult
deriving DecidableEq, Repr

/-- The sort key order used by the eligibility query
(`.order('year, section, roll_number')`): lexicographic on
(year, section, roll_number) with the string order. -/
def studentLe (s t : Student) : Prop :=
  strLt s.year t.year = true ∨
    (s.year = t.year ∧
      (strLt s.«section» t.«section» = true ∨
        (s.«section» = t.«section» ∧ strLe s.roll_number t.roll_number = true)))

instance : DecidableRel studentLe := fun s t => by
  unfold studentLe; infer_instance

/-- The eligibility query of the run:
`supabase.from('students').select('*').in('year', exam.years)
.order('year, section, roll_number')`.  Modelled as the roster filtered by
year membership and sorted by the (year, section, roll_number) key. -/
def eligibleStudents (examYears : List String) (roster : List Student) : List Student :=
  List.insertionSort studentLe (roster.filter (fun s => decide (s.year ∈ examYears)))

/-- The grouping key of `alternateStudentsByYearSection`:
the template string `${student.year}-${student.section}`. -/
def mixKey (s : Student) : String :=
  s.year ++ "-" ++ s.«section»

/-- One step of the `reduce` that builds the groups record: append the student
to its key's bucket, or add a fresh bucket at the end (JS object string keys
keep insertion order). -/
def insertGrouped (acc : List (String × List Student)) (s : Student) :
    List (String × List Student) :=
  if mixKey s ∈ acc.map Prod.fst then
    acc.map (fun g => if g.1 = mixKey s then (g.1, g.2 ++ [s]) else g)
  else
    acc ++ [(mixKey s, [s])]

/-- The `students.reduce(...)` grouping of `alternateStudentsByYearSection`. -/
def groupByKey (students : List Student) : List (String × List Student) :=
  students.foldl insertGrouped []

/-- `alternateStudentsByYearSection`: round-robin over the (year, section)
groups in first-appearance order; round `i` pushes `groups[key][i]` for each
key that still has an element at index `i`. -/
def alternateStudentsByYearSection (students : List Student) : List Student :=
  let groups := groupByKey students
  let maxLength := (groups.map (fun g => g.2.length)).foldl Nat.max 0
  (List.range maxLength).flatMap (fun i => groups.filterMap (fun g => g.2.get? i))

/-- The JS destructuring swap `[a[i], a[j]] = [a[j], a[i]]` on a list. -/
def listSwap (l : List Student) (i j : Nat) : List Student :=
  match l.get? i, l.get? j with
  | some a, some b => (l.set i b).set j a
  | _, _ => l

/-- The Fisher–Yates loop of `shuffleArray`, counting `i` down from
`length - 1` to `1`; the draw `Math.floor(Math.random() * (i + 1))` is
modelled as `rng i % (i + 1)`. -/
def shuffleGo (rng : Nat → Nat) : Nat → List Student → List Student
  | 0, l => l
  | i + 1, l => shuffleGo rng i (listSwap l (i + 1) (rng (i + 1) % (i + 2)))

/-- `shuffleArray`: copy the array and run the Fisher–Yates loop. -/
def shuffleArray (rng : Nat → Nat) (arr : List Student) : List Student :=
  shuffleGo rng (arr.length - 1) arr

/-- The strategy dispatch of the run: the `if/else if` chain on
`combination.mix_strategy`; any name other than `'alternate'` and `'random'`
keeps the copied sequence `[...students]` unchanged. -/
def applyStrategy (rng : Nat → Nat) (strategy : String) (students : List Student) :
    List Student :=
  if strategy = "alternate" then alternateStudentsByYearSection students
  else if strategy = "random" then shuffleArray rng students
  else students

/-- The slot enumeration of one classroom in the packing loop: bench numbers
`1..total_benches`, and within a bench seat positions `1..students_per_bench`. -/
def benchSlots (c : Classroom) : List (String × Nat × Nat) :=
  (List.range c.total_benches).flatMap (fun b =>
    (List.range c.students_per_bench).map (fun s => (c.id, b + 1, s + 1)))

/-- The full slot enumeration: classrooms in list order, then benches, then
seats. -/
def allSlots (rooms : List Classroom) : List (String × Nat × Nat) :=
  rooms.flatMap benchSlots

/-- The allocation record pushed by the packing loop. -/
def mkAlloc (examId : String) (st : Student) (slot : String × Nat × Nat) :
    Allocation :=
  ⟨examId, slot.1, st.id, slot.2.1, slot.2.2⟩

/-- The slot triple carried by an allocation record. -/
def allocSlot (a : Allocation) : String × Nat × Nat :=
  (a.classroom_id, a.bench_number, a.seat_position)

/-- The packing loop of `generateSeatingAllocation`: walk classrooms in order,
stop when the student cursor reaches the end, and within a classroom pair the
remaining students with that classroom's slot enumeration. -/
def packRooms (examId : String) : List Classroom → List Student → List Allocation
  | [], _ => []
  | c :: rest, sts =>
    if sts.isEmpty then []
    else
      List.zipWith (mkAlloc examId) sts (benchSlots c) ++
        packRooms examId rest (sts.drop (benchSlots c).length)

/-- The core of `generateSeatingAllocation`, from the eligibility query to the
insert.  The persistence store (all rows of `seating_allocations`) is passed
in and the updated store is returned alongside the result.  Note the order of
operations taken from the source: the early return on an empty student set
comes first, then the delete of the previous allocations for the exam, then
the capacity gate against the summed `total_capacity` fields, then mixing and
packing and the insert of the new rows. -/
def generateSeatingAllocation (rng : Nat → Nat) (examId : String)
    (examYears : List String) (strategy : String) (classrooms : List Classroom)
    (roster : List Student) (store : List Allocation) :
    RunResult × List Allocation :=
  let students := eligibleStudents examYears roster
  if students.isEmpty then
    (RunResult.noStudents, store)
  else
    let cleared := store.filter (fun a => a.exam_id ≠ examId)
    let totalCapacity := (classrooms.map Classroom.total_capacity).sum
    if totalCapacity < students.length then
      (RunResult.insufficientCapacity students.length totalCapacity, cleared)
    else
      let mixed := applyStrategy rng strategy students
      let allocs := packRooms examId classrooms mixed
      (RunResult.ok allocs, cleared ++ allocs)

/-- Drop the first element of every group's bucket (used to restate the
round-robin of `alternateStudentsByYearSection` as a recursion on rounds). -/
def tailGroups (gs : List (String × List Student)) : List (String × List Student) :=
  gs.map (fun g => (g.1, g.2.tail))

/-- Round-by-round reformulation of the round-robin loop: one round emits the
head of every non-exhausted group in order, then recurses on the tails. -/
def roundRobin (gs : List (String × List Student)) : Nat → List Student
  | 0 => []
  | n + 1 =>
    gs.filterMap (fun g => g.2.head?) ++ roundRobin (tailGroups gs) n

/-- The grouping list has pairwise-distinct keys. -/
def keysNodup (gs : List (String × List Student)) : Prop :=
  (gs.map Prod.fst).Nodup

/-- Every student stored in a bucket carries that bucket's key. -/
def coherentGroups (gs : List (String × List Student)) : Prop :=
  ∀ g ∈ gs, ∀ s ∈ g.2, mixKey s = g.1

/- Concrete rows used to instantiate theorems with hypotheses. -/

/-- Sample student: II Year, section A, roll r1. -/
def stA : Student := ⟨"id1", "Asha", "r1", "II Year", "A", "CSE"⟩

/-- Sample student: II Year, section A, roll r3. -/
def stB : Student := ⟨"id2", "Bala", "r3", "II Year", "A", "CSE"⟩

/-- Sample student: II Year, section B, roll r2. -/
def stC : Student := ⟨"id3", "Charu", "r2", "II Year", "B", "CSE"⟩

/-- Sample student: III Year, section A, roll r4. -/
def stD : Student := ⟨"id4", "Devi", "r4", "III Year", "A", "CSE"⟩

/-- Sample classroom: 2 benches of 2, consistent capacity field. -/
def roomA : Classroom := ⟨"c1", "R101", "Main", 2, 4, 2⟩

/-- Sample classroom: 1 bench of 1, consistent capacity field. -/
def roomB : Classroom := ⟨"c2", "R102", "Main", 1, 1, 1⟩

/-- Sample classroom whose stored `total_capacity` (5) exceeds its actual
bench slots (1 bench × 2 seats = 2). -/
def roomInflated : Classroom := ⟨"c3", "R103", "Main", 1, 5, 2⟩

/-- A pre-existing allocation row for exam "E1". -/
def oldAlloc : Allocation := ⟨"E1", "c9", "id9", 1, 1⟩

/-- A constant stand-in for the ambient `Math.random()` stream. -/
def rngZero : Nat → Nat := fun _ => 0

/-- Another stand-in stream, drawing 1 at every step. -/
def rngOne : Nat → Nat := fun _ => 1

/-! ### Text comparison lemmas -/

theorem charListLt_trans : ∀ (a b c : List Char),
    charListLt a b = true → charListLt b c = true → charListLt a c = true := by
  intro a
  induction a with
  | nil =>
    intro b c h1 h2
    cases b with
    | nil => simp [charListLt] at h1
    | cons y bs =>
      cases c with
      | nil => simp [charListLt] at h2
      | cons z cs => rfl
  | cons x as ih =>
    intro b c h1 h2
    cases b with
    | nil => simp [charListLt] at h1
    | cons y bs =>
      cases c with
      | nil => simp [charListLt] at h2
      | cons z cs =>
        rw [charListLt] at h1 h2 ⊢
        by_cases hxy : x < y
        · rw [if_pos hxy] at h1
          by_cases hyz : y < z
          · rw [if_pos (hxy.trans hyz)]
          · rw [if_neg hyz] at h2
            by_cases hzy : z < y
            · rw [if_pos hzy] at h2; exact absurd h2 (by simp)
            · have : y = z := le_antisymm (not_lt.mp hzy) (not_lt.mp hyz)
              rw [if_pos (this ▸ hxy)]
        · rw [if_neg hxy] at h1
          by_cases hyx : y < x
          · rw [if_pos hyx] at h1; exact absurd h1 (by simp)
          · rw [if_neg hyx] at h1
            have hxy' : x = y := le_antisymm (not_lt.mp hyx) (not_lt.mp hxy)
            subst hxy'
            by_cases hyz : x < z
            · rw [if_pos hyz]
            · rw [if_neg hyz] at h2 ⊢
              by_cases hzy : z < x
              · rw [if_pos hzy] at h2; exact absurd h2 (by simp)
              · rw [if_neg hzy] at h2 ⊢
                exact ih bs cs h1 h2

theorem charListLt_antisymm : ∀ (a b : List Char),
    charListLt a b = false → charListLt b a = false → a = b := by
  intro a
  induction a with
  | nil =>
    intro b h1 _
    cases b with
    | nil => rfl
    | cons y bs => simp [charListLt] at h1
  | cons x as ih =>
    intro b h1 h2
    cases b with
    | nil => simp [charListLt] at h2
    | cons y bs =>
      rw [charListLt] at h1 h2
      by_cases hxy : x < y
      · rw [if_pos hxy] at h1; exact absurd h1 (by simp)
      · by_cases hyx : y < x
        · rw [if_pos hyx] at h2; exact absurd h2 (by simp)
        · rw [if_neg hxy, if_neg hyx] at h1
          rw [if_neg hyx, if_neg hxy] at h2
          have hxy' : x = y := le_antisymm (not_lt.mp hyx) (not_lt.mp hxy)
          rw [hxy', ih bs h1 h2]

theorem strLt_trans {a b c : String} (h1 : strLt a b = true) (h2 : strLt b c = true) :
    strLt a c = true :=
  charListLt_trans _ _ _ h1 h2

theorem str_eq_of_not_lt {a b : String} (h1 : strLt a b = false)
    (h2 : strLt b a = false) : a = b := by
  have := charListLt_antisymm a.data b.data h1 h2
  cases a
  cases b
  exact congrArg String.mk this

theorem strLt_connex (a b : String) :
    strLt a b = true ∨ strLt b a = true ∨ a = b := by
  cases h1 : strLt a b with
  | true => exact Or.inl rfl
  | false =>
    cases h2 : strLt b a with
    | true => exact Or.inr (Or.inl rfl)
    | false => exact Or.inr (Or.inr (str_eq_of_not_lt h1 h2))

theorem strLe_trans {a b c : String} (h1 : strLe a b = true) (h2 : strLe b c = true) :
    strLe a c = true := by
  rw [strLe, Bool.or_eq_true, beq_iff_eq] at h1 h2 ⊢
  rcases h1 with h1 | rfl
  · rcases h2 with h2 | rfl
    · exact Or.inl (strLt_trans h1 h2)
    · exact Or.inl h1
  · exact h2

theorem strLe_total (a b : String) : strLe a b = true ∨ strLe b a = true := by
  rcases strLt_connex a b with h | h | rfl
  · exact Or.inl (by rw [strLe, Bool.or_eq_true]; exact Or.inl h)
  · exact Or.inr (by rw [strLe, Bool.or_eq_true]; exact Or.inl h)
  · exact Or.inl (by rw [strLe, Bool.or_eq_true, beq_iff_eq]; exact Or.inr rfl)

instance : IsTotal Student studentLe := by
  constructor
  intro s t
  rcases strLt_connex s.year t.year with h | h | h
  · exact Or.inl (Or.inl h)
  · exact Or.inr (Or.inl h)
  · rcases strLt_connex s.«section» t.«section» with h2 | h2 | h2
    · exact Or.inl (Or.inr ⟨h, Or.inl h2⟩)
    · exact Or.inr (Or.inr ⟨h.symm, Or.inl h2⟩)
    · rcases strLe_total s.roll_number t.roll_number with h3 | h3
      · exact Or.inl (Or.inr ⟨h, Or.inr ⟨h2, h3⟩⟩)
      · exact Or.inr (Or.inr ⟨h.symm, Or.inr ⟨h2.symm, h3⟩⟩)

instance : IsTrans Student studentLe := by
  constructor
  intro a b c hab hbc
  rcases hab with h1 | ⟨hy1, h1⟩
  · rcases hbc with h2 | ⟨hy2, _⟩
    · exact Or.inl (strLt_trans h1 h2)
    · exact Or.inl (hy2 ▸ h1)
  · rcases hbc with h2 | ⟨hy2, h2⟩
    · exact Or.inl (hy1 ▸ h2)
    · refine Or.inr ⟨hy1.trans hy2, ?_⟩
      rcases h1 with hs1 | ⟨hseq1, hr1⟩
      · rcases h2 with hs2 | ⟨hseq2, _⟩
        · exact Or.inl (strLt_trans hs1 hs2)
        · exact Or.inl (hseq2 ▸ hs1)
      · rcases h2 with hs2 | ⟨hseq2, hr2⟩
        · exact Or.inl (hseq1 ▸ hs2)
        · exact Or.inr ⟨hseq1.trans hseq2, strLe_trans hr1 hr2⟩

/-! ### Packer lemmas -/

theorem zipWith_append_right {α β γ : Type} (f : α → β → γ) (as : List α)
    (bs cs : List β) :
    List.zipWith f as (bs ++ cs) =
      List.zipWith f as bs ++ List.zipWith f (as.drop bs.length) cs := by
  induction bs generalizing as with
  | nil => simp
  | cons b bs ih =>
    cases as with
    | nil => simp
    | cons a as => simp [ih]

theorem packRooms_eq_zipWith (examId : String) (rooms : List Classroom)
    (sts : List Student) :
    packRooms examId rooms sts = List.zipWith (mkAlloc examId) sts (allSlots rooms) := by
  induction rooms generalizing sts with
  | nil => simp [packRooms, allSlots]
  | cons c rest ih =>
    show packRooms examId (c :: rest) sts = _
    rw [packRooms]
    by_cases h : sts.isEmpty
    · rw [List.isEmpty_iff] at h
      simp [h]
    · simp only [h, if_false]
      rw [allSlots, List.flatMap_cons, zipWith_append_right, ih]
      rfl

theorem length_benchSlots (c : Classroom) :
    (benchSlots c).length = c.total_benches * c.students_per_bench := by
  simp [benchSlots, List.length_flatMap, Function.comp_def, List.map_const]

theorem length_allSlots (rooms : List Classroom) :
    (allSlots rooms).length =
      (rooms.map (fun c => c.total_benches * c.students_per_bench)).sum := by
  induction rooms with
  | nil => simp [allSlots]
  | cons c rest ih =>
    rw [allSlots, List.flatMap_cons, List.length_append, length_benchSlots]
    rw [allSlots] at ih
    simp [ih]

theorem map_allocSlot_zipWith (examId : String) (sts : List Student)
    (slots : List (String × Nat × Nat)) :
    (List.zipWith (mkAlloc examId) sts slots).map allocSlot = slots.take sts.length := by
  induction sts generalizing slots with
  | nil => simp
  | cons s sts ih =>
    cases slots with
    | nil => simp
    | cons slot rest =>
      obtain ⟨x, y, z⟩ := slot
      simp [mkAlloc, allocSlot, ih]

theorem map_studentId_zipWith (examId : String) (sts : List Student)
    (slots : List (String × Nat × Nat)) :
    (List.zipWith (mkAlloc examId) sts slots).map Allocation.student_id =
      (sts.map Student.id).take slots.length := by
  induction sts generalizing slots with
  | nil => simp
  | cons s sts ih =>
    cases slots with
    | nil => simp
    | cons slot rest => simp [mkAlloc, ih]

theorem mem_benchSlots {c : Classroom} {x : String × Nat × Nat}
    (hx : x ∈ benchSlots c) :
    x.1 = c.id ∧ 1 ≤ x.2.1 ∧ x.2.1 ≤ c.total_benches ∧
      1 ≤ x.2.2 ∧ x.2.2 ≤ c.students_per_bench := by
  simp only [benchSlots, List.mem_flatMap, List.mem_map, List.mem_range] at hx
  obtain ⟨b, hb, s, hs, rfl⟩ := hx
  exact ⟨rfl, Nat.succ_le_succ (Nat.zero_le _), hb, Nat.succ_le_succ (Nat.zero_le _), hs⟩

theorem mem_allSlots {rooms : List Classroom} {x : String × Nat × Nat}
    (hx : x ∈ allSlots rooms) : ∃ c ∈ rooms, x ∈ benchSlots c := by
  simpa [allSlots, List.mem_flatMap] using hx

theorem benchSlots_eq_map_product (c : Classroom) :
    benchSlots c =
      ((List.range c.total_benches) ×ˢ (List.range c.students_per_bench)).map
        (fun p => (c.id, p.1 + 1, p.2 + 1)) := by
  show _ = (List.product _ _).map _
  rw [List.product, List.map_flatMap]
  simp [benchSlots, List.map_map, Function.comp_def]

theorem nodup_benchSlots (c : Classroom) : (benchSlots c).Nodup := by
  rw [benchSlots_eq_map_product]
  refine List.Nodup.map ?_ (List.Nodup.product (List.nodup_range _) (List.nodup_range _))
  intro ⟨a, b⟩ ⟨a', b'⟩ h
  simp only [Prod.mk.injEq] at h
  obtain ⟨-, h1, h2⟩ := h
  simp [Nat.succ_injective h1, Nat.succ_injective h2]

theorem nodup_allSlots {rooms : List Classroom}
    (h : (rooms.map Classroom.id).Nodup) : (allSlots rooms).Nodup := by
  induction rooms with
  | nil => simp [allSlots]
  | cons c rest ih =>
    simp only [List.map_cons, List.nodup_cons] at h
    rw [allSlots, List.flatMap_cons, List.nodup_append]
    refine ⟨nodup_benchSlots c, ih h.2, ?_⟩
    intro x hx hx'
    obtain ⟨d, hd, hxd⟩ := mem_allSlots hx'
    have h1 : x.1 = c.id := (mem_benchSlots hx).1
    have h2 : x.1 = d.id := (mem_benchSlots hxd).1
    exact h.1 (h1 ▸ h2 ▸ List.mem_map_of_mem Classroom.id hd)

/-! ### Shuffle lemmas -/

theorem set_self_of_get {l : List Student} {i : Nat} {a : Student}
    (h : l.get? i = some a) : l.set i a = l := by
  induction l generalizing i with
  | nil => simp at h
  | cons x t ih =>
    cases i with
    | zero => simp at h; simp [h]
    | succ k => simp only [List.get?_cons_succ] at h; simp [ih h]

theorem cons_set_perm {t : List Student} {k : Nat} {b : Student} (x : Student)
    (h : t.get? k = some b) : (b :: t.set k x).Perm (x :: t) := by
  induction t generalizing k with
  | nil => simp at h
  | cons y s ih =>
    cases k with
    | zero =>
      simp only [List.get?_cons_zero, Option.some.injEq] at h
      subst h
      simp only [List.set_cons_zero]
      exact List.Perm.swap x y s
    | succ m =>
      simp only [List.get?_cons_succ] at h
      simp only [List.set_cons_succ]
      have h1 : (b :: y :: s.set m x).Perm (y :: b :: s.set m x) := List.Perm.swap y b _
      have h2 : (y :: b :: s.set m x).Perm (y :: x :: s) := List.Perm.cons y (ih h)
      have h3 : (y :: x :: s).Perm (x :: y :: s) := List.Perm.swap x y s
      exact (h1.trans h2).trans h3

theorem set_set_perm {l : List Student} {i j : Nat} {a b : Student}
    (hi : l.get? i = some a) (hj : l.get? j = some b) :
    ((l.set i b).set j a).Perm l := by
  induction l generalizing i j with
  | nil => simp at hi
  | cons x t ih =>
    cases i with
    | zero =>
      simp only [List.get?_cons_zero, Option.some.injEq] at hi
      subst hi
      cases j with
      | zero =>
        simp only [List.get?_cons_zero, Option.some.injEq] at hj
        subst hj
        simp
      | succ m =>
        simp only [List.get?_cons_succ] at hj
        simp only [List.set_cons_zero, List.set_cons_succ]
        exact cons_set_perm x hj
    | succ k =>
      simp only [List.get?_cons_succ] at hi
      cases j with
      | zero =>
        simp only [List.get?_cons_zero, Option.some.injEq] at hj
        subst hj
        simp only [List.set_cons_succ, List.set_cons_zero]
        exact cons_set_perm x hi
      | succ m =>
        simp only [List.get?_cons_succ] at hj
        simp only [List.set_cons_succ]
        exact List.Perm.cons x (ih hi hj)

theorem listSwap_perm (l : List Student) (i j : Nat) : (listSwap l i j).Perm l := by
  rw [listSwap]
  cases hi : l.get? i with
  | none => exact List.Perm.refl l
  | some a =>
    cases hj : l.get? j with
    | none => exact List.Perm.refl l
    | some b => exact set_set_perm hi hj

theorem shuffleGo_perm (rng : Nat → Nat) (n : Nat) (l : List Student) :
    (shuffleGo rng n l).Perm l := by
  induction n generalizing l with
  | zero => simp [shuffleGo]
  | succ i ih =>
    rw [shuffleGo]
    exact (ih _).trans (listSwap_perm _ _ _)

theorem shuffleArray_perm (rng : Nat → Nat) (arr : List Student) :
    (shuffleArray rng arr).Perm arr :=
  shuffleGo_perm rng _ arr

/-! ### Grouping lemmas for the alternate strategy -/

theorem keys_insertGrouped (acc : List (String × List Student)) (s : Student) :
    (insertGrouped acc s).map Prod.fst =
      if mixKey s ∈ acc.map Prod.fst then acc.map Prod.fst
      else acc.map Prod.fst ++ [mixKey s] := by
  rw [insertGrouped]
  split
  · rw [List.map_map]
    refine List.map_congr_left ?_
    intro g _
    by_cases hg : g.1 = mixKey s <;> simp [hg]
  · simp

theorem keysNodup_insertGrouped {acc : List (String × List Student)} (s : Student)
    (h : keysNodup acc) : keysNodup (insertGrouped acc s) := by
  rw [keysNodup, keys_insertGrouped]
  split
  · exact h
  · rw [List.nodup_append]
    exact ⟨h, List.nodup_singleton _, by
      intro x hx hx'
      simp only [List.mem_singleton] at hx'
      subst hx'
      exact (by assumption : ¬ mixKey s ∈ acc.map Prod.fst) hx⟩

theorem coherent_insertGrouped {acc : List (String × List Student)} (s : Student)
    (h : coherentGroups acc) : coherentGroups (insertGrouped acc s) := by
  rw [insertGrouped]
  split
  · intro g hg t ht
    simp only [List.mem_map] at hg
    obtain ⟨g₀, hg₀, rfl⟩ := hg
    by_cases hk : g₀.1 = mixKey s
    · rw [if_pos hk] at ht ⊢
      simp only [List.mem_append, List.mem_singleton] at ht
      rcases ht with ht | rfl
      · exact h g₀ hg₀ t ht
      · exact hk.symm
    · rw [if_neg hk] at ht ⊢
      exact h g₀ hg₀ t ht
  · intro g hg t ht
    simp only [List.mem_append, List.mem_singleton] at hg
    rcases hg with hg | rfl
    · exact h g hg t ht
    · simp only [List.mem_singleton] at ht
      subst ht
      rfl

theorem keysNodup_groupByKey (students : List Student) :
    keysNodup (groupByKey students) := by
  rw [groupByKey]
  have : ∀ (l : List Student) (acc : List (String × List Student)), keysNodup acc →
      keysNodup (l.foldl insertGrouped acc) := by
    intro l
    induction l with
    | nil => intro acc h; exact h
    | cons s rest ih =>
      intro acc h
      exact ih _ (keysNodup_insertGrouped s h)
  exact this students [] (by simp [keysNodup])

theorem coherent_groupByKey (students : List Student) :
    coherentGroups (groupByKey students) := by
  rw [groupByKey]
  have : ∀ (l : List Student) (acc : List (String × List Student)), coherentGroups acc →
      coherentGroups (l.foldl insertGrouped acc) := by
    intro l
    induction l with
    | nil => intro acc h; exact h
    | cons s rest ih =>
      intro acc h
      exact ih _ (coherent_insertGrouped s h)
  exact this students [] (fun g hg => absurd hg (List.not_mem_nil g))

theorem update_eq_self_of_not_mem {acc : List (String × List Student)} {s : Student}
    (h : mixKey s ∉ acc.map Prod.fst) :
    acc.map (fun g => if g.1 = mixKey s then (g.1, g.2 ++ [s]) else g) = acc := by
  rw [show acc = acc.map id from (List.map_id acc).symm]
  rw [List.map_map]
  refine List.map_congr_left ?_
  intro g hg
  have : g.1 ≠ mixKey s := by
    intro hk
    exact h (hk ▸ List.mem_map_of_mem Prod.fst hg)
  simp [this]

theorem flatten_update_perm (s : Student) :
    ∀ (acc : List (String × List Student)), keysNodup acc →
      mixKey s ∈ acc.map Prod.fst →
      ((acc.map (fun g => if g.1 = mixKey s then (g.1, g.2 ++ [s]) else g)).map
          Prod.snd).flatten.Perm
        ((acc.map Prod.snd).flatten ++ [s]) := by
  intro acc
  induction acc with
  | nil =>
    intro _ hmem
    simp at hmem
  | cons g rest ih =>
    intro h hmem
    simp only [keysNodup, List.map_cons, List.nodup_cons] at h
    by_cases hg : g.1 = mixKey s
    · have hrest : mixKey s ∉ rest.map Prod.fst := by
        rw [← hg]; exact h.1
      simp only [List.map_cons, if_pos hg, List.flatten_cons]
      rw [update_eq_self_of_not_mem hrest, List.append_assoc, List.append_assoc]
      exact List.Perm.append_left g.2 List.perm_append_comm
    · have hmem' : mixKey s ∈ rest.map Prod.fst := by
        simp only [List.map_cons, List.mem_cons] at hmem
        rcases hmem with hmem | hmem
        · exact absurd hmem.symm hg
        · exact hmem
      simp only [List.map_cons, if_neg hg, List.flatten_cons]
      rw [List.append_assoc]
      exact List.Perm.append_left g.2 (ih h.2 hmem')

theorem flatten_insertGrouped {acc : List (String × List Student)} (s : Student)
    (h : keysNodup acc) :
    ((insertGrouped acc s).map Prod.snd).flatten.Perm
      ((acc.map Prod.snd).flatten ++ [s]) := by
  rw [insertGrouped]
  split
  · rename_i hmem
    exact flatten_update_perm s acc h hmem
  · simp only [List.map_append, List.flatten_append, List.map_cons, List.flatten_cons]
    simp

theorem flatten_groupByKey (students : List Student) :
    ((groupByKey students).map Prod.snd).flatten.Perm students := by
  rw [groupByKey]
  have main : ∀ (l : List Student) (acc : List (String × List Student)), keysNodup acc →
      ((l.foldl insertGrouped acc).map Prod.snd).flatten.Perm
        ((acc.map Prod.snd).flatten ++ l) := by
    intro l
    induction l with
    | nil => intro acc _; simp
    | cons s rest ih =>
      intro acc h
      have step := ih (insertGrouped acc s) (keysNodup_insertGrouped s h)
      refine (step.trans ?_)
      refine List.Perm.trans (List.Perm.append_right rest (flatten_insertGrouped s h)) ?_
      rw [List.append_assoc]
      exact List.Perm.refl _
  simpa using main students [] (by simp [keysNodup])

/-! ### Round-robin reformulation of the alternate strategy -/

theorem get?_tail {α : Type} (l : List α) (i : Nat) :
    l.tail.get? i = l.get? (i + 1) := by
  cases l <;> simp

theorem rr_eq (n : Nat) :
    ∀ gs : List (String × List Student),
      (List.range n).flatMap (fun i => gs.filterMap (fun g => g.2.get? i)) =
        roundRobin gs n := by
  induction n with
  | zero => intro gs; simp [roundRobin]
  | succ n ih =>
    intro gs
    rw [List.range_succ_eq_map, List.flatMap_cons, roundRobin, List.flatMap_map]
    congr 1
    · exact congrArg (fun f => List.filterMap f gs)
        (funext fun g => List.get?_zero g.2)
    · have step : ∀ i : Nat,
          gs.filterMap (fun g => g.2.get? (Nat.succ i)) =
            (tailGroups gs).filterMap (fun g => g.2.get? i) := by
        intro i
        rw [tailGroups, List.filterMap_map]
        exact congrArg (fun f => List.filterMap f gs)
          (funext fun g => (get?_tail g.2 i).symm)
      calc (List.range n).flatMap (fun i => gs.filterMap fun g => g.2.get? (Nat.succ i))
          = (List.range n).flatMap (fun i => (tailGroups gs).filterMap fun g => g.2.get? i) := by
            exact congrArg (List.range n).flatMap (funext fun i => step i)
        _ = roundRobin (tailGroups gs) n := ih (tailGroups gs)

theorem alternate_eq_roundRobin (students : List Student) :
    alternateStudentsByYearSection students =
      roundRobin (groupByKey students)
        (((groupByKey students).map (fun g => g.2.length)).foldl Nat.max 0) := by
  rw [alternateStudentsByYearSection]
  exact rr_eq _ (groupByKey students)

theorem le_foldl_max (l : List Nat) (a : Nat) : a ≤ l.foldl Nat.max a := by
  induction l generalizing a with
  | nil => exact Nat.le_refl a
  | cons x t ih =>
    exact Nat.le_trans (Nat.le_max_left a x) (ih (Nat.max a x))

theorem mem_le_foldl_max {l : List Nat} {x : Nat} (hx : x ∈ l) (a : Nat) :
    x ≤ l.foldl Nat.max a := by
  induction l generalizing a with
  | nil => simp at hx
  | cons y t ih =>
    rcases List.mem_cons.mp hx with rfl | hx'
    · exact Nat.le_trans (Nat.le_max_right a x) (le_foldl_max t (Nat.max a x))
    · exact ih hx' (Nat.max a y)

theorem groups_length_le_max (students : List Student) :
    ∀ g ∈ groupByKey students, g.2.length ≤
      (((groupByKey students).map (fun g => g.2.length)).foldl Nat.max 0) := by
  intro g hg
  exact mem_le_foldl_max (List.mem_map_of_mem (fun g => g.2.length) hg) 0

theorem heads_tails_perm (L : List (List Student)) :
    L.flatten.Perm (L.filterMap List.head? ++ (L.map List.tail).flatten) := by
  induction L with
  | nil => simp
  | cons l L ih =>
    cases l with
    | nil => simpa using ih
    | cons h t =>
      simp only [List.flatten_cons, List.map_cons, List.filterMap_cons, List.head?_cons,
        List.tail_cons, List.cons_append]
      refine List.Perm.cons h ?_
      refine (List.Perm.append_left t ih).trans ?_
      rw [← List.append_assoc, ← List.append_assoc]
      exact List.Perm.append_right _ List.perm_append_comm

theorem filterMap_heads_eq (gs : List (String × List Student)) :
    gs.filterMap (fun g => g.2.head?) = (gs.map Prod.snd).filterMap List.head? := by
  rw [List.filterMap_map]
  rfl

theorem tails_map_eq (gs : List (String × List Student)) :
    (tailGroups gs).map Prod.snd = (gs.map Prod.snd).map List.tail := by
  simp [tailGroups, List.map_map, Function.comp_def]

theorem flatten_round_decompose (gs : List (String × List Student)) :
    ((gs.map Prod.snd).flatten).Perm
      (gs.filterMap (fun g => g.2.head?) ++ ((tailGroups gs).map Prod.snd).flatten) := by
  rw [filterMap_heads_eq, tails_map_eq]
  exact heads_tails_perm (gs.map Prod.snd)

theorem roundRobin_perm :
    ∀ (n : Nat) (gs : List (String × List Student)),
      (∀ g ∈ gs, g.2.length ≤ n) →
      (roundRobin gs n).Perm ((gs.map Prod.snd).flatten) := by
  intro n
  induction n with
  | zero =>
    intro gs h
    have : ∀ l ∈ gs.map Prod.snd, l = [] := by
      intro l hl
      obtain ⟨g, hg, rfl⟩ := List.mem_map.mp hl
      exact List.length_eq_zero.mp (Nat.le_zero.mp (h g hg))
    rw [roundRobin, List.flatten_eq_nil_iff.mpr this]
  | succ n ih =>
    intro gs h
    rw [roundRobin]
    have hb : ∀ g ∈ tailGroups gs, g.2.length ≤ n := by
      intro g hg
      obtain ⟨g₀, hg₀, rfl⟩ := List.mem_map.mp hg
      have := h g₀ hg₀
      cases hg₂ : g₀.2 with
      | nil => simp [hg₂]
      | cons x t =>
        rw [hg₂] at this
        simpa [hg₂] using Nat.le_of_succ_le_succ this
    have step := List.Perm.append_left (gs.filterMap (fun g => g.2.head?)) (ih (tailGroups gs) hb)
    exact step.trans (flatten_round_decompose gs).symm

theorem alternate_perm (students : List Student) :
    (alternateStudentsByYearSection students).Perm students := by
  rw [alternate_eq_roundRobin]
  refine (roundRobin_perm _ _ (groups_length_le_max students)).trans ?_
  exact flatten_groupByKey students

theorem applyStrategy_perm (rng : Nat → Nat) (strategy : String)
    (students : List Student) :
    (applyStrategy rng strategy students).Perm students := by
  rw [applyStrategy]
  split
  · exact alternate_perm students
  · split
    · exact shuffleArray_perm rng students
    · exact List.Perm.refl students

/-! ### Adjacency property of the round-robin output -/

theorem keysNodup_tailGroups {gs : List (String × List Student)}
    (h : keysNodup gs) : keysNodup (tailGroups gs) := by
  rw [keysNodup, tailGroups, List.map_map]
  exact h

theorem coherent_tailGroups {gs : List (String × List Student)}
    (h : coherentGroups gs) : coherentGroups (tailGroups gs) := by
  intro g hg s hs
  obtain ⟨g₀, hg₀, rfl⟩ := List.mem_map.mp hg
  exact h g₀ hg₀ s (List.mem_of_mem_tail hs)

theorem roundRobin_nil_of_all_empty :
    ∀ (n : Nat) {gs : List (String × List Student)},
      (∀ g ∈ gs, g.2 = []) → roundRobin gs n = [] := by
  intro n
  induction n with
  | zero => intro gs _; rfl
  | succ n ih =>
    intro gs h
    rw [roundRobin]
    have h1 : gs.filterMap (fun g => g.2.head?) = [] := by
      rw [List.filterMap_eq_nil_iff]
      intro g hg
      rw [h g hg]
      rfl
    have h2 : ∀ g ∈ tailGroups gs, g.2 = [] := by
      intro g hg
      obtain ⟨g₀, hg₀, rfl⟩ := List.mem_map.mp hg
      rw [h g₀ hg₀]
      rfl
    rw [h1, ih h2]
    rfl

theorem roundRobin_mono {k : String} :
    ∀ (n : Nat) {gs : List (String × List Student)}, coherentGroups gs →
      (∀ g ∈ gs, g.2 ≠ [] → g.1 = k) →
      ∀ s ∈ roundRobin gs n, mixKey s = k := by
  intro n
  induction n with
  | zero => intro gs _ _ s hs; exact absurd hs (List.not_mem_nil s)
  | succ n ih =>
    intro gs hcoh hk s hs
    rw [roundRobin] at hs
    rcases List.mem_append.mp hs with hs | hs
    · obtain ⟨g, hg, hhead⟩ := List.mem_filterMap.mp hs
      have hmem : s ∈ g.2 := List.mem_of_mem_head? (by rw [hhead]; exact rfl)
      have hne : g.2 ≠ [] := by
        intro hnil
        rw [hnil] at hmem
        exact absurd hmem (List.not_mem_nil s)
      exact (hcoh g hg s hmem).trans (hk g hg hne)
    · refine ih (coherent_tailGroups hcoh) ?_ s hs
      intro g hg hne
      obtain ⟨g₀, hg₀, rfl⟩ := List.mem_map.mp hg
      refine hk g₀ hg₀ ?_
      intro hnil
      rw [hnil] at hne
      exact hne rfl

theorem heads_keys_sublist :
    ∀ (gs : List (String × List Student)), coherentGroups gs →
      ((gs.filterMap (fun g => g.2.head?)).map mixKey).Sublist (gs.map Prod.fst) := by
  intro gs
  induction gs with
  | nil => intro _; simp
  | cons g rest ih =>
    intro hcoh
    have hcr : coherentGroups rest := fun g' hg' => hcoh g' (List.mem_cons_of_mem g hg')
    cases hg2 : g.2 with
    | nil =>
      rw [List.filterMap_cons_none (by rw [hg2]; rfl), List.map_cons]
      exact (ih hcr).cons g.1
    | cons h t =>
      rw [List.filterMap_cons_some (by rw [hg2]; rfl), List.map_cons, List.map_cons]
      have hkey : mixKey h = g.1 :=
        hcoh g (List.mem_cons_self g rest) h (by rw [hg2]; exact List.mem_cons_self h t)
      rw [hkey]
      exact (ih hcr).cons₂ g.1

theorem nodup_heads_keys {gs : List (String × List Student)}
    (hnd : keysNodup gs) (hcoh : coherentGroups gs) :
    ((gs.filterMap (fun g => g.2.head?)).map mixKey).Nodup :=
  (heads_keys_sublist gs hcoh).nodup hnd

theorem eq_of_two_decomp :
    ∀ (A : List (String × List Student)) {A' B B' : List (String × List Student)}
      {x x' : String × List Student},
      A ++ x :: B = A' ++ x' :: B' →
      ((A ++ x :: B).map Prod.fst).Nodup → x.1 = x'.1 →
      A = A' ∧ x = x' ∧ B = B' := by
  intro A
  induction A with
  | nil =>
    intro A' B B' x x' hl hnd hk
    cases A' with
    | nil =>
      rw [List.nil_append, List.nil_append] at hl
      obtain ⟨h1, h2⟩ := List.cons.inj hl
      exact ⟨rfl, h1, h2⟩
    | cons y A'' =>
      simp only [List.nil_append, List.cons_append] at hl
      obtain ⟨rfl, hB⟩ := List.cons.inj hl
      exfalso
      simp only [List.nil_append, List.map_cons, List.nodup_cons] at hnd
      refine hnd.1 ?_
      rw [hk, hB]
      refine List.mem_map_of_mem Prod.fst ?_
      exact List.mem_append.mpr (Or.inr (List.mem_cons_self x' B'))
  | cons z A₂ ih =>
    intro A' B B' x x' hl hnd hk
    cases A' with
    | nil =>
      simp only [List.nil_append, List.cons_append] at hl
      obtain ⟨rfl, hB'⟩ := List.cons.inj hl
      exfalso
      simp only [List.cons_append, List.map_cons, List.nodup_cons] at hnd
      refine hnd.1 ?_
      rw [← hk]
      refine List.mem_map_of_mem Prod.fst ?_
      exact List.mem_append.mpr (Or.inr (List.mem_cons_self x B))
    | cons y A₂' =>
      simp only [List.cons_append] at hl
      obtain ⟨rfl, htail⟩ := List.cons.inj hl
      simp only [List.cons_append, List.map_cons, List.nodup_cons] at hnd
      obtain ⟨hA, hx, hB⟩ := ih htail hnd.2 hk
      exact ⟨by rw [hA], hx, hB⟩

theorem tailGroups_append (u v : List (String × List Student)) :
    tailGroups (u ++ v) = tailGroups u ++ tailGroups v := by
  simp [tailGroups]

theorem tailGroups_cons (g : String × List Student) (v : List (String × List Student)) :
    tailGroups (g :: v) = (g.1, g.2.tail) :: tailGroups v := by
  simp [tailGroups]

theorem roundRobin_adjacent :
    ∀ (n : Nat) (gs : List (String × List Student)), keysNodup gs →
      coherentGroups gs →
      ∀ (l₁ l₂ : List Student) (a b : Student),
        roundRobin gs n = l₁ ++ a :: b :: l₂ → mixKey a = mixKey b →
        ∀ s ∈ a :: b :: l₂, mixKey s = mixKey a := by
  intro n
  induction n with
  | zero =>
    intro gs _ _ l₁ l₂ a b hsplit _
    exfalso
    rw [roundRobin] at hsplit
    cases l₁ <;> simp at hsplit
  | succ n ih =>
    intro gs hnd hcoh l₁ l₂ a b hsplit hab
    rw [roundRobin] at hsplit
    rcases List.append_eq_append_iff.mp hsplit.symm with ⟨a', hH, hX⟩ | ⟨c', _, hR⟩
    · cases a' with
      | nil =>
        rw [List.nil_append] at hX
        exact ih (tailGroups gs) (keysNodup_tailGroups hnd) (coherent_tailGroups hcoh)
          [] l₂ a b hX.symm hab
      | cons x a'' =>
        cases a'' with
        | cons y a''' =>
          -- two consecutive entries inside one round have distinct keys
          exfalso
          simp only [List.cons_append] at hX
          obtain ⟨rfl, hX2⟩ := List.cons.inj hX
          obtain ⟨rfl, _⟩ := List.cons.inj hX2
          have hndH := nodup_heads_keys hnd hcoh
          rw [hH, List.map_append] at hndH
          have h2 := (List.nodup_append.mp hndH).2.1
          simp only [List.map_cons, List.nodup_cons, List.mem_cons] at h2
          exact h2.1 (Or.inl hab)
        | nil =>
          -- junction: a is the last head of this round, b opens the next round
          simp only [List.cons_append, List.nil_append] at hX
          obtain ⟨rfl, hRX⟩ := List.cons.inj hX
          -- decompose the head extraction around the group of a:
          -- every group after a's group has no head, i.e. is exhausted
          obtain ⟨u, v, hguv, hu, hv⟩ := List.filterMap_eq_append_iff.mp hH
          obtain ⟨v₁, g, v₂, hv12, hv1none, hga, hv2nil⟩ :=
            List.filterMap_eq_cons_iff.mp hv
          rw [List.filterMap_eq_nil_iff] at hv2nil
          have hgs : gs = (u ++ v₁) ++ g :: v₂ := by
            rw [hguv, hv12, ← List.append_assoc]
          have hgmem : g ∈ gs := by
            rw [hgs]
            exact List.mem_append.mpr (Or.inr (List.mem_cons_self g v₂))
          have hamem : a ∈ g.2 := List.mem_of_mem_head? (by rw [hga]; exact rfl)
          have hkeya : mixKey a = g.1 := hcoh g hgmem a hamem
          -- the next round is non-empty, so it has a first contributor
          cases n with
          | zero =>
            exfalso
            rw [roundRobin] at hRX
            exact List.noConfusion hRX
          | succ m =>
            have hcoh' : coherentGroups (tailGroups gs) := coherent_tailGroups hcoh
            have hnd' : keysNodup (tailGroups gs) := keysNodup_tailGroups hnd
            have hRX0 := hRX
            rcases hH' : (tailGroups gs).filterMap (fun g => g.2.head?) with _ | ⟨b₀, tl⟩
            · exfalso
              have hempty : ∀ g' ∈ tailGroups gs, g'.2 = [] := by
                rw [List.filterMap_eq_nil_iff] at hH'
                intro g' hg'
                exact List.head?_eq_none_iff.mp (hH' g' hg')
              rw [roundRobin_nil_of_all_empty (m + 1) hempty] at hRX
              exact List.noConfusion hRX
            · rw [roundRobin, hH', List.cons_append] at hRX
              obtain ⟨hbb, -⟩ := List.cons.inj hRX
              subst hbb
              obtain ⟨w₁, g', w₂, hw12, hw1none, hgb, -⟩ :=
                List.filterMap_eq_cons_iff.mp hH'
              have hgmem' : g' ∈ tailGroups gs := by
                rw [hw12]
                exact List.mem_append.mpr (Or.inr (List.mem_cons_self g' w₂))
              have hbmem : b ∈ g'.2 := List.mem_of_mem_head? (by rw [hgb]; exact rfl)
              have hkeyb : mixKey b = g'.1 := hcoh' g' hgmem' b hbmem
              -- identify the two decompositions of the tail groups
              have hdecomp1 : tailGroups (u ++ v₁) ++ (g.1, g.2.tail) :: tailGroups v₂ =
                  w₁ ++ g' :: w₂ := by
                rw [← tailGroups_cons, ← tailGroups_append, ← hgs, hw12]
              have hndfull : ((tailGroups (u ++ v₁) ++
                  (g.1, g.2.tail) :: tailGroups v₂).map Prod.fst).Nodup := by
                rw [← tailGroups_cons, ← tailGroups_append, ← hgs]
                exact hnd'
              have hkk : ((g.1, g.2.tail) : String × List Student).1 = g'.1 := by
                show g.1 = g'.1
                rw [← hkeya, hab, hkeyb]
              obtain ⟨hw1, hgg', hw2⟩ := eq_of_two_decomp _ hdecomp1 hndfull hkk
              -- every non-exhausted tail group carries the key of a
              have honekey : ∀ g'' ∈ tailGroups gs, g''.2 ≠ [] → g''.1 = mixKey a := by
                intro g'' hg'' hne
                rw [hgs, tailGroups_append, tailGroups_cons] at hg''
                rcases List.mem_append.mp hg'' with hin | hin
                · exfalso
                  have := hw1none _ (hw1 ▸ hin)
                  exact hne (List.head?_eq_none_iff.mp this)
                · rcases List.mem_cons.mp hin with rfl | hin
                  · exact hkeya.symm
                  · exfalso
                    obtain ⟨h₀, hh₀, rfl⟩ := List.mem_map.mp hin
                    have : h₀.2.head? = none := hv2nil h₀ hh₀
                    rw [List.head?_eq_none_iff.mp this] at hne
                    exact hne rfl
              have hmono := roundRobin_mono (m + 1) hcoh' honekey
              intro s hs
              rcases List.mem_cons.mp hs with rfl | hs
              · rfl
              · refine hmono s ?_
                rw [← hRX0]
                exact hs
    · exact ih (tailGroups gs) (keysNodup_tailGroups hnd) (coherent_tailGroups hcoh)
        c' l₂ a b hR hab

theorem alternate_adjacent (students : List Student) (l₁ l₂ : List Student)
    (a b : Student)
    (hsplit : alternateStudentsByYearSection students = l₁ ++ a :: b :: l₂)
    (hab : mixKey a = mixKey b) :
    ∀ s ∈ a :: b :: l₂, mixKey s = mixKey a := by
  rw [alternate_eq_roundRobin] at hsplit
  exact roundRobin_adjacent _ _ (keysNodup_groupByKey students)
    (coherent_groupByKey students) l₁ l₂ a b hsplit hab

/-! ### Eligibility lemmas -/

theorem eligible_perm_filter (examYears : List String) (roster : List Student) :
    (eligibleStudents examYears roster).Perm
      (roster.filter (fun s => decide (s.year ∈ examYears))) :=
  List.perm_insertionSort studentLe _

theorem eligible_sorted (examYears : List String) (roster : List Student) :
    List.Sorted studentLe (eligibleStudents examYears roster) :=
  List.sorted_insertionSort studentLe _

theorem eligible_mem (examYears : List String) (roster : List Student) (s : Student) :
    s ∈ eligibleStudents examYears roster ↔ s ∈ roster ∧ s.year ∈ examYears := by
  rw [(eligible_perm_filter examYears roster).mem_iff, List.mem_filter]
  simp

theorem eligible_ids_nodup {examYears : List String} {roster : List Student}
    (h : (roster.map Student.id).Nodup) :
    ((eligibleStudents examYears roster).map Student.id).Nodup := by
  have hsub : ((roster.filter (fun s => decide (s.year ∈ examYears))).map
      Student.id).Sublist (roster.map Student.id) :=
    (List.filter_sublist roster).map Student.id
  exact ((eligible_perm_filter examYears roster).map Student.id).symm.nodup
    (hsub.nodup h)

/-! ### Run unfolding lemmas -/

theorem run_noStudents_eq (rng : Nat → Nat) (examId : String)
    (examYears : List String) (strategy : String) (classrooms : List Classroom)
    (roster : List Student) (store : List Allocation)
    (h : eligibleStudents examYears roster = []) :
    generateSeatingAllocation rng examId examYears strategy classrooms roster store =
      (RunResult.noStudents, store) := by
  simp only [generateSeatingAllocation]
  rw [if_pos (by rw [List.isEmpty_iff]; exact h)]

theorem run_insufficient_eq (rng : Nat → Nat) (examId : String)
    (examYears : List String) (strategy : String) (classrooms : List Classroom)
    (roster : List Student) (store : List Allocation)
    (hne : eligibleStudents examYears roster ≠ [])
    (hcap : (classrooms.map Classroom.total_capacity).sum <
      (eligibleStudents examYears roster).length) :
    generateSeatingAllocation rng examId examYears strategy classrooms roster store =
      (RunResult.insufficientCapacity (eligibleStudents examYears roster).length
        ((classrooms.map Classroom.total_capacity).sum),
       store.filter (fun a => a.exam_id ≠ examId)) := by
  simp only [generateSeatingAllocation]
  rw [if_neg (by rw [List.isEmpty_iff]; exact hne), if_pos hcap]

theorem run_ok_eq (rng : Nat → Nat) (examId : String)
    (examYears : List String) (strategy : String) (classrooms : List Classroom)
    (roster : List Student) (store : List Allocation)
    (hne : eligibleStudents examYears roster ≠ [])
    (hcap : (eligibleStudents examYears roster).length ≤
      (classrooms.map Classroom.total_capacity).sum) :
    generateSeatingAllocation rng examId examYears strategy classrooms roster store =
      (RunResult.ok (packRooms examId classrooms
          (applyStrategy rng strategy (eligibleStudents examYears roster))),
       store.filter (fun a => a.exam_id ≠ examId) ++
         packRooms examId classrooms
          (applyStrategy rng strategy (eligibleStudents examYears roster))) := by
  simp only [generateSeatingAllocation]
  rw [if_neg (by rw [List.isEmpty_iff]; exact hne), if_neg (Nat.not_lt.mpr hcap)]

/-! ### Claim theorems -/

/-- C1: the claim says that on `N > C` the run fails with the capacity error
carrying both numbers and performs no store mutation (no delete).  The code
does report the error with both numbers, but it deletes the previous
allocation set for the exam *before* the capacity gate: at this concrete
input (2 eligible students, total capacity 1, one prior allocation row for
the exam) the run returns the error and the prior row is gone. -/
theorem C1_capacity_failure_deletes_prior_allocations :
    generateSeatingAllocation rngZero "E1" ["II Year"] "block" [roomB]
        [stA, stC] [oldAlloc] =
      (RunResult.insufficientCapacity 2 1, []) ∧
      [oldAlloc] ≠ ([] : List Allocation) := by
  exact ⟨by decide, by decide⟩

/-- C3 counterexample: the claim says an unrecognized strategy name fails with
a `ConfigurationError`.  At the concrete unknown name "diagonal" the run
instead succeeds, producing exactly the block-order allocations — there is no
error path for strategy names in the code. -/
theorem C3_counterexample_unknown_strategy_succeeds :
    (generateSeatingAllocation rngZero "E1" ["II Year"] "diagonal" [roomA]
        [stA, stC] []).1 =
      RunResult.ok [⟨"E1", "c1", "id1", 1, 1⟩, ⟨"E1", "c1", "id3", 1, 2⟩] := by
  decide

/-- C3 amended: any strategy name other than "alternate" and "random" silently
falls through to the identity (block) behaviour; no error is raised. -/
theorem C3_unknown_strategy_defaults_to_block (rng : Nat → Nat) (name : String)
    (students : List Student) (h1 : name ≠ "alternate") (h2 : name ≠ "random") :
    applyStrategy rng name students = students := by
  rw [applyStrategy, if_neg h1, if_neg h2]

/-- C3 witness: the amended statement at the concrete unknown name. -/
theorem C3_witness :
    ("diagonal" : String) ≠ "alternate" ∧ ("diagonal" : String) ≠ "random" ∧
      applyStrategy rngZero "diagonal" [stA, stC] = [stA, stC] :=
  ⟨by decide, by decide,
    C3_unknown_strategy_defaults_to_block rngZero "diagonal" [stA, stC]
      (by decide) (by decide)⟩

/-- C4 counterexample: the claim says an empty eligible set succeeds with an
empty allocation set.  At a concrete input whose exam years match no roster
entry, the run instead reports the "No Students Found" outcome, which is an
error toast in the code, not a success. -/
theorem C4_counterexample_zero_students_errors :
    generateSeatingAllocation rngZero "E1" ["IV Year"] "block" [roomA]
        [stA, stC] [oldAlloc] =
      (RunResult.noStudents, [oldAlloc]) ∧
      RunResult.noStudents ≠ RunResult.ok [] := by
  exact ⟨by decide, by decide⟩

/-- C4 amended: when the eligible student set is empty the run stops with the
"No Students Found" error outcome, produces no allocations, and leaves the
store untouched (this early return happens before the delete). -/
theorem C4_zero_students_error_no_mutation (rng : Nat → Nat) (examId : String)
    (examYears : List String) (strategy : String) (classrooms : List Classroom)
    (roster : List Student) (store : List Allocation)
    (h : eligibleStudents examYears roster = []) :
    generateSeatingAllocation rng examId examYears strategy classrooms roster store =
      (RunResult.noStudents, store) :=
  run_noStudents_eq rng examId examYears strategy classrooms roster store h

/-- C4 witness: the amended statement at a concrete input. -/
theorem C4_witness :
    eligibleStudents ["IV Year"] [stA] = [] ∧
      generateSeatingAllocation rngZero "E2" ["IV Year"] "block" [roomA] [stA]
          [oldAlloc] =
        (RunResult.noStudents, [oldAlloc]) :=
  ⟨by decide,
    C4_zero_students_error_no_mutation rngZero "E2" ["IV Year"] "block" [roomA]
      [stA] [oldAlloc] (by decide)⟩

/-- C8 counterexample: the claim says the random strategy reproduces its output
across runs given the same caller-supplied seed.  The code's `shuffleArray`
takes no seed at all — its result depends on the ambient `Math.random()`
stream: at identical caller inputs, two different ambient streams give two
different outputs. -/
theorem C8_counterexample_random_not_input_determined :
    shuffleArray rngZero [stA, stC] ≠ shuffleArray rngOne [stA, stC] := by
  decide

/-- C8 amended: block and alternate are deterministic in the student sequence;
the Fisher-Yates shuffle is deterministic only in the pair (student sequence,
ambient random draw stream) — there is no seed parameter in the code. -/
theorem C8_determinism_amended (rng₁ rng₂ : Nat → Nat) (sts₁ sts₂ : List Student)
    (hsts : sts₁ = sts₂) (hrng : ∀ i, rng₁ i = rng₂ i) :
    alternateStudentsByYearSection sts₁ = alternateStudentsByYearSection sts₂ ∧
      applyStrategy rng₁ "block" sts₁ = applyStrategy rng₂ "block" sts₂ ∧
      shuffleArray rng₁ sts₁ = shuffleArray rng₂ sts₂ := by
  subst hsts
  have hr : rng₁ = rng₂ := funext hrng
  subst hr
  exact ⟨rfl, rfl, rfl⟩

/-- C8 witness: the amended statement at a concrete input. -/
theorem C8_witness :
    alternateStudentsByYearSection [stA, stC] = alternateStudentsByYearSection [stA, stC] ∧
      applyStrategy rngZero "block" [stA, stC] = applyStrategy rngZero "block" [stA, stC] ∧
      shuffleArray rngZero [stA, stC] = shuffleArray rngZero [stA, stC] :=
  C8_determinism_amended rngZero rngZero [stA, stC] [stA, stC] rfl (fun _ => rfl)

/-- C9: the eligibility step returns exactly the roster students whose year is
in the exam's year set — it is a permutation of that filter, and membership is
equivalent to roster membership plus year membership, so no other criterion is
applied — and the output is sorted by the (year, section, roll_number) text
keys. -/
theorem C9_eligibility_filter_and_order (examYears : List String)
    (roster : List Student) :
    (eligibleStudents examYears roster).Perm
        (roster.filter (fun s => decide (s.year ∈ examYears))) ∧
      (∀ s, s ∈ eligibleStudents examYears roster ↔
        s ∈ roster ∧ s.year ∈ examYears) ∧
      List.Sorted studentLe (eligibleStudents examYears roster) :=
  ⟨eligible_perm_filter examYears roster,
    fun s => eligible_mem examYears roster s,
    eligible_sorted examYears roster⟩

/-- C2 counterexample: the claim quantifies over all inputs with `N ≤ C`, but
at a concrete input with `N = 0 ≤ C` the run does not succeed: it returns the
"No Students Found" error outcome instead of a success with zero allocations. -/
theorem C2_counterexample_empty_eligible_fails :
    (eligibleStudents ["IV Year"] [stA]).length ≤
        ([roomA].map Classroom.total_capacity).sum ∧
      (generateSeatingAllocation rngZero "E1" ["IV Year"] "block" [roomA] [stA]
          []).1 = RunResult.noStudents ∧
      RunResult.noStudents ≠ RunResult.ok [] := by
  exact ⟨by decide, by decide, by decide⟩

/-- C2 amended: for inputs with at least one eligible student, `N ≤ C`,
capacity fields consistent with the schema's generated column
(`total_capacity = total_benches * students_per_bench`), and distinct student
ids, the run succeeds with exactly `N` allocations and every eligible
student's id appears in exactly one of them. -/
theorem C2_completeness_amended (rng : Nat → Nat) (examId : String)
    (examYears : List String) (strategy : String) (classrooms : List Classroom)
    (roster : List Student) (store : List Allocation)
    (hne : eligibleStudents examYears roster ≠ [])
    (hcoh : ∀ c ∈ classrooms,
      c.total_capacity = c.total_benches * c.students_per_bench)
    (hcap : (eligibleStudents examYears roster).length ≤
      (classrooms.map Classroom.total_capacity).sum)
    (hnodup : (roster.map Student.id).Nodup) :
    ∃ allocs,
      generateSeatingAllocation rng examId examYears strategy classrooms roster store =
        (RunResult.ok allocs,
          store.filter (fun a => a.exam_id ≠ examId) ++ allocs) ∧
      allocs.length = (eligibleStudents examYears roster).length ∧
      (allocs.map Allocation.student_id).Perm
        ((eligibleStudents examYears roster).map Student.id) ∧
      ∀ s ∈ eligibleStudents examYears roster,
        (allocs.map Allocation.student_id).count s.id = 1 := by
  have hperm := applyStrategy_perm rng strategy (eligibleStudents examYears roster)
  have hlen := hperm.length_eq
  have hslotlen : (allSlots classrooms).length =
      (classrooms.map Classroom.total_capacity).sum := by
    rw [length_allSlots]
    congr 1
    refine List.map_congr_left ?_
    intro c hc
    exact (hcoh c hc).symm
  have hcap' : (applyStrategy rng strategy
      (eligibleStudents examYears roster)).length ≤ (allSlots classrooms).length := by
    rw [hlen, hslotlen]
    exact hcap
  have hmap : (packRooms examId classrooms (applyStrategy rng strategy
      (eligibleStudents examYears roster))).map Allocation.student_id =
      (applyStrategy rng strategy (eligibleStudents examYears roster)).map
        Student.id := by
    rw [packRooms_eq_zipWith, map_studentId_zipWith]
    refine List.take_of_length_le ?_
    rw [List.length_map]
    exact hcap'
  refine ⟨_, run_ok_eq rng examId examYears strategy classrooms roster store hne hcap,
    ?_, ?_, ?_⟩
  · rw [packRooms_eq_zipWith, List.length_zipWith, inf_eq_left.mpr hcap', hlen]
  · rw [hmap]
    exact hperm.map Student.id
  · intro s hs
    rw [hmap, List.Perm.count_eq (hperm.map Student.id)]
    exact List.count_eq_one_of_mem (eligible_ids_nodup hnodup)
      (List.mem_map_of_mem Student.id hs)

/-- C2 witness: the amended statement at a concrete input (2 eligible
students, one 4-seat classroom, a prior allocation row that gets replaced). -/
theorem C2_witness :
    eligibleStudents ["II Year"] [stA, stC] ≠ [] ∧
      roomA.total_capacity = roomA.total_benches * roomA.students_per_bench ∧
      (eligibleStudents ["II Year"] [stA, stC]).length ≤
        ([roomA].map Classroom.total_capacity).sum ∧
      ∃ allocs,
        generateSeatingAllocation rngZero "E1" ["II Year"] "alternate" [roomA]
            [stA, stC] [oldAlloc] =
          (RunResult.ok allocs,
            [oldAlloc].filter (fun a => a.exam_id ≠ "E1") ++ allocs) ∧
        allocs.length = (eligibleStudents ["II Year"] [stA, stC]).length ∧
        (allocs.map Allocation.student_id).Perm
          ((eligibleStudents ["II Year"] [stA, stC]).map Student.id) ∧
        ∀ s ∈ eligibleStudents ["II Year"] [stA, stC],
          (allocs.map Allocation.student_id).count s.id = 1 := by
  refine ⟨by decide, by decide, by decide, ?_⟩
  exact C2_completeness_amended rngZero "E1" ["II Year"] "alternate" [roomA]
    [stA, stC] [oldAlloc] (by decide) (by decide) (by decide) (by decide)

/-- C5: any allocation set returned by a successful run has pairwise-distinct
(classroom, bench, seat) slot triples and pairwise-distinct student ids, given
the database key invariants that classroom ids and student ids are distinct. -/
theorem C5_uniqueness (rng : Nat → Nat) (examId : String)
    (examYears : List String) (strategy : String) (classrooms : List Classroom)
    (roster : List Student) (store store2 : List Allocation)
    (allocs : List Allocation)
    (hnodupS : (roster.map Student.id).Nodup)
    (hnodupC : (classrooms.map Classroom.id).Nodup)
    (hrun : generateSeatingAllocation rng examId examYears strategy classrooms
      roster store = (RunResult.ok allocs, store2)) :
    (allocs.map allocSlot).Nodup ∧ (allocs.map Allocation.student_id).Nodup := by
  by_cases hne : eligibleStudents examYears roster = []
  · rw [run_noStudents_eq rng examId examYears strategy classrooms roster store hne]
      at hrun
    exact absurd (congrArg Prod.fst hrun) (by simp)
  · by_cases hcap : (classrooms.map Classroom.total_capacity).sum <
        (eligibleStudents examYears roster).length
    · rw [run_insufficient_eq rng examId examYears strategy classrooms roster store
        hne hcap] at hrun
      exact absurd (congrArg Prod.fst hrun) (by simp)
    · rw [run_ok_eq rng examId examYears strategy classrooms roster store hne
        (Nat.not_lt.mp hcap)] at hrun
      have hallocs : allocs = packRooms examId classrooms
          (applyStrategy rng strategy (eligibleStudents examYears roster)) := by
        have h := congrArg Prod.fst hrun
        simpa using h.symm
      subst hallocs
      constructor
      · rw [packRooms_eq_zipWith, map_allocSlot_zipWith]
        exact (List.take_sublist _ _).nodup (nodup_allSlots hnodupC)
      · rw [packRooms_eq_zipWith, map_studentId_zipWith]
        refine (List.take_sublist _ _).nodup ?_
        exact ((applyStrategy_perm rng strategy _).map Student.id).symm.nodup
          (eligible_ids_nodup hnodupS)

/-- C5 witness: the uniqueness statement at a concrete successful run. -/
theorem C5_witness :
    (([stA, stC] : List Student).map Student.id).Nodup ∧
      (([roomA] : List Classroom).map Classroom.id).Nodup ∧
      ((([⟨"E1", "c1", "id1", 1, 1⟩, ⟨"E1", "c1", "id3", 1, 2⟩] :
          List Allocation).map allocSlot).Nodup ∧
        (([⟨"E1", "c1", "id1", 1, 1⟩, ⟨"E1", "c1", "id3", 1, 2⟩] :
          List Allocation).map Allocation.student_id).Nodup) :=
  ⟨by decide, by decide,
    C5_uniqueness rngZero "E1" ["II Year"] "alternate" [roomA] [stA, stC] []
      [⟨"E1", "c1", "id1", 1, 1⟩, ⟨"E1", "c1", "id3", 1, 2⟩]
      [⟨"E1", "c1", "id1", 1, 1⟩, ⟨"E1", "c1", "id3", 1, 2⟩]
      (by decide) (by decide) (by decide)⟩

/-- C6: the block dispatch and the alternate strategy both output a
permutation of the input student ids; and whenever two consecutive students of
the alternate output share their (year, section) group, the entire remaining
output consists of that group — that is, only one group still has remaining
members at that point.  The key-injectivity hypothesis reflects that the
grouping key is the string `year ++ "-" ++ section`. -/
theorem C6_mixing_permutation_and_alternation (rng : Nat → Nat)
    (sts : List Student)
    (hinj : ∀ s ∈ sts, ∀ t ∈ sts, mixKey s = mixKey t →
      s.year = t.year ∧ s.«section» = t.«section») :
    ((applyStrategy rng "block" sts).map Student.id).Perm (sts.map Student.id) ∧
      ((alternateStudentsByYearSection sts).map Student.id).Perm
        (sts.map Student.id) ∧
      ∀ l₁ l₂ a b, alternateStudentsByYearSection sts = l₁ ++ a :: b :: l₂ →
        a.year = b.year → a.«section» = b.«section» →
        ∀ s ∈ b :: l₂, s.year = a.year ∧ s.«section» = a.«section» := by
  refine ⟨(applyStrategy_perm rng "block" sts).map Student.id,
    (alternate_perm sts).map Student.id, ?_⟩
  intro l₁ l₂ a b hsplit hyear hsec
  have hab : mixKey a = mixKey b := by rw [mixKey, mixKey, hyear, hsec]
  have hall := alternate_adjacent sts l₁ l₂ a b hsplit hab
  have hmem_out : ∀ x ∈ a :: b :: l₂, x ∈ sts := by
    intro x hx
    have hx' : x ∈ alternateStudentsByYearSection sts := by
      rw [hsplit]
      exact List.mem_append.mpr (Or.inr hx)
    exact (alternate_perm sts).mem_iff.mp hx'
  intro s hs
  have hkey : mixKey s = mixKey a := hall s (List.mem_cons_of_mem a hs)
  have hsmem : s ∈ sts := hmem_out s (List.mem_cons_of_mem a hs)
  have hamem : a ∈ sts := hmem_out a (List.mem_cons_self a _)
  exact hinj s hsmem a hamem hkey

/-- C6 witness: the statement at a concrete input in which the alternate
output has two consecutive same-group students (a single group). -/
theorem C6_witness :
    ((applyStrategy rngZero "block" [stA, stB]).map Student.id).Perm
        ([stA, stB].map Student.id) ∧
      ((alternateStudentsByYearSection [stA, stB]).map Student.id).Perm
        ([stA, stB].map Student.id) ∧
      (stB.year = stA.year ∧ stB.«section» = stA.«section») := by
  have h := C6_mixing_permutation_and_alternation rngZero [stA, stB] (by decide)
  refine ⟨h.1, h.2.1, ?_⟩
  exact h.2.2 [] [] stA stB (by decide) (by decide) (by decide) stB
    (List.mem_cons_self stB [])

/-- C7: the packer pairs the k-th student with the k-th slot of the
enumeration that walks classrooms in order, benches `1..total_benches`, seats
`1..students_per_bench`; it emits exactly `min` of the student count and the
slot count (stopping when students are exhausted); and every emitted record's
bench and seat numbers lie within its classroom's bounds. -/
theorem C7_packer_enumeration (examId : String) (rooms : List Classroom)
    (sts : List Student) :
    (packRooms examId rooms sts).length = min sts.length (allSlots rooms).length ∧
      (∀ k st slot, sts.get? k = some st → (allSlots rooms).get? k = some slot →
        (packRooms examId rooms sts).get? k = some (mkAlloc examId st slot)) ∧
      (∀ a ∈ packRooms examId rooms sts, ∃ c ∈ rooms,
        a.classroom_id = c.id ∧ 1 ≤ a.bench_number ∧
          a.bench_number ≤ c.total_benches ∧ 1 ≤ a.seat_position ∧
          a.seat_position ≤ c.students_per_bench) := by
  refine ⟨?_, ?_, ?_⟩
  · rw [packRooms_eq_zipWith, List.length_zipWith]
  · intro k st slot hst hslot
    rw [packRooms_eq_zipWith, List.get?_eq_getElem?, List.getElem?_zipWith]
    rw [List.get?_eq_getElem?] at hst hslot
    rw [hst, hslot]
  · intro a ha
    rw [packRooms_eq_zipWith] at ha
    have hslotmem : allocSlot a ∈ (allSlots rooms).take sts.length := by
      rw [← map_allocSlot_zipWith examId sts (allSlots rooms)]
      exact List.mem_map_of_mem allocSlot ha
    have hmem : allocSlot a ∈ allSlots rooms :=
      (List.take_sublist _ _).subset hslotmem
    obtain ⟨c, hc, hbs⟩ := mem_allSlots hmem
    obtain ⟨h1, h2, h3, h4, h5⟩ := mem_benchSlots hbs
    exact ⟨c, hc, h1, h2, h3, h4, h5⟩

/-- C7 witness: the element-wise statement at a concrete index. -/
theorem C7_witness :
    ([stA, stC] : List Student).get? 1 = some stC ∧
      (allSlots [roomA]).get? 1 = some ("c1", 1, 2) ∧
      (packRooms "E1" [roomA] [stA, stC]).get? 1 =
        some (mkAlloc "E1" stC ("c1", 1, 2)) :=
  ⟨by decide, by decide,
    (C7_packer_enumeration "E1" [roomA] [stA, stC]).2.1 1 stC ("c1", 1, 2)
      (by decide) (by decide)⟩

/-- C10: for every run that reaches packing (nonempty eligible set, capacity
gate passed against the stored `total_capacity` fields), the run succeeds and
emits exactly `min N (Σ total_benches * students_per_bench)` allocations — so
when a stored capacity field exceeds the actual bench slots, surplus students
are silently left without a seat. -/
theorem C10_pack_count_min_bench_slots (rng : Nat → Nat) (examId : String)
    (examYears : List String) (strategy : String) (classrooms : List Classroom)
    (roster : List Student) (store : List Allocation)
    (hne : eligibleStudents examYears roster ≠ [])
    (hcap : (eligibleStudents examYears roster).length ≤
      (classrooms.map Classroom.total_capacity).sum) :
    ∃ allocs,
      generateSeatingAllocation rng examId examYears strategy classrooms roster store =
        (RunResult.ok allocs,
          store.filter (fun a => a.exam_id ≠ examId) ++ allocs) ∧
      allocs.length = min (eligibleStudents examYears roster).length
        ((classrooms.map (fun c => c.total_benches * c.students_per_bench)).sum) := by
  refine ⟨_, run_ok_eq rng examId examYears strategy classrooms roster store hne hcap,
    ?_⟩
  rw [packRooms_eq_zipWith, List.length_zipWith,
    (applyStrategy_perm rng strategy (eligibleStudents examYears roster)).length_eq,
    length_allSlots]

/-- C10 witness: a classroom whose stored capacity field (5) exceeds its bench
slots (1 bench × 2 seats): 3 eligible students pass the gate, the run
succeeds, and only `min 3 2 = 2` allocations are emitted. -/
theorem C10_witness :
    eligibleStudents ["II Year"] [stA, stB, stC] ≠ [] ∧
      (eligibleStudents ["II Year"] [stA, stB, stC]).length ≤
        ([roomInflated].map Classroom.total_capacity).sum ∧
      roomInflated.total_benches * roomInflated.students_per_bench <
        (eligibleStudents ["II Year"] [stA, stB, stC]).length ∧
      ∃ allocs,
        generateSeatingAllocation rngZero "E1" ["II Year"] "block" [roomInflated]
            [stA, stB, stC] ([] : List Allocation) =
          (RunResult.ok allocs,
            ([] : List Allocation).filter (fun a => a.exam_id ≠ "E1") ++ allocs) ∧
        allocs.length = min (eligibleStudents ["II Year"] [stA, stB, stC]).length
          (([roomInflated].map
            (fun c => c.total_benches * c.students_per_bench)).sum) := by
  refine ⟨by decide, by decide, by decide, ?_⟩
  exact C10_pack_count_min_bench_slots rngZero "E1" ["II Year"] "block"
    [roomInflated] [stA, stB, stC] ([] : List Allocation) (by decide) (by decide)

end HallAssigner
